import Mathlib

/-!
# Cube detection: quadrilateral adjacency and cube inference

A shallow embedding of `sharesEdge`, `detectCube` (src/cube.cpp) and
`findQuadrilaterals` (src/cube.cpp, src/quad.cpp), followed by the properties
of the specification that are stated about them.

Conventions of the embedding.

* `cv::Point` is `Point_<int>`: a pair of integers. Coordinates and their
  differences are unbounded integers; a difference of two `int` values is zero
  exactly when the values are equal, also when it wraps, so the same-point test
  is not affected.
* `std::vector<T>` is `List T`; `operator[]` is a checked read that faults
  when the index is not below the size.
* `int` is a 32-bit two-complement integer: the counter of `sharesEdge` is an
  integer that every increment wraps into the range from `-2^31` to `2^31 - 1`
  (`wrapInt32`).
* The library primitives of the extraction sweep are arbitrary functions,
  collected in `Vision`.
-/

namespace CubeDetection

/-! ## Data model -/

/-- A `cv::Point`, that is `cv::Point_<int>`. -/
structure Point where
  x : Int
  y : Int
deriving DecidableEq

/-- Coordinate-wise difference, `pt1 - pt2` of `cv::Point_`. -/
instance : Sub Point := ⟨fun a b => ⟨a.x - b.x, a.y - b.y⟩⟩

/-- A `vector<Point>`. -/
abbrev Quad := List Point

/-- The argument of the square root in `cv::norm(Point)`:
`(double)pt.x*pt.x + (double)pt.y*pt.y`. -/
def normSq (pt : Point) : Int := pt.x * pt.x + pt.y * pt.y

/-- The test `norm(pt) < 1e-6`. With `n = normSq pt` a non-negative integer,
`sqrt n < 10^-6` is `n < 10^-12`, that is `n * 10^12 < 1`. -/
def normBelowEps (pt : Point) : Bool := decide (normSq pt * 10 ^ 12 < 1)

/-! ## `sharesEdge` (src/cube.cpp, lines 100-114) -/

/-- The value a 32-bit `int` holds for the arithmetic result `x`: `x` itself
when it is in the range from `-2^31` to `2^31 - 1`, else `x` wrapped into that
range modulo `2^32`. -/
def wrapInt32 (x : Int) : Int := (x + 2147483648) % 4294967296 - 2147483648

/-- The body of the inner range-for of `sharesEdge`: one comparison of `pt1`
with `pt2`, and `sharedPoints++` when they are the same point. -/
def sharedStep (pt1 : Point) (sharedPoints : Int) (pt2 : Point) : Int :=
  if normBelowEps (pt1 - pt2) then wrapInt32 (sharedPoints + 1) else sharedPoints

/-- The value of `int sharedPoints` when the two nested range-for loops of
`sharesEdge` are done. -/
def sharedPoints (quad1 quad2 : Quad) : Int :=
  quad1.foldl (fun s pt1 => quad2.foldl (sharedStep pt1) s) 0

/-- Checks if two quadrilaterals share an edge:
`return sharedPoints == 2`. -/
def sharesEdge (quad1 quad2 : Quad) : Bool :=
  sharedPoints quad1 quad2 == 2

/-! ## `detectCube` (src/cube.cpp, lines 117-137) -/

/-- What can go wrong while running the loops of `detectCube`. -/
inductive Fault where
  /-- A read `quadrilaterals[i]` with `i` not below the size. -/
  | outOfRange
  /-- The iteration budget of the model ran out before the loop ended. -/
  | outOfFuel
deriving DecidableEq

/-- The read `quadrilaterals[i]`. -/
def readAt (quadrilaterals : List Quad) (i : Nat) : Except Fault Quad :=
  match quadrilaterals[i]? with
  | some q => .ok q
  | none => .error .outOfRange

/-- The loop `for (k = ...; k < quadrilaterals.size(); k++)`, entered with
the given `k`. The result `some b` is an executed `return b`; `none` means the
loop ran to its end. -/
def loopK (quadrilaterals : List Quad) (i j : Nat) :
    Nat → Nat → Except Fault (Option Bool)
  | fuel, k =>
    if k < quadrilaterals.length then
      match fuel with
      | 0 => .error .outOfFuel
      | fuel + 1 =>
        match readAt quadrilaterals i, readAt quadrilaterals k with
        | .ok qi, .ok qk =>
          if sharesEdge qi qk then .ok (some true)
          else
            match readAt quadrilaterals j with
            | .ok qj =>
              if sharesEdge qj qk then .ok (some true)
              else loopK quadrilaterals i j fuel (k + 1)
            | .error e => .error e
        | .error e, _ => .error e
        | _, .error e => .error e
    else .ok none

/-- The loop `for (j = ...; j < quadrilaterals.size(); j++)`, entered with
the given `j`. -/
def loopJ (quadrilaterals : List Quad) (i : Nat) :
    Nat → Nat → Except Fault (Option Bool)
  | fuel, j =>
    if j < quadrilaterals.length then
      match fuel with
      | 0 => .error .outOfFuel
      | fuel + 1 =>
        match readAt quadrilaterals i, readAt quadrilaterals j with
        | .ok qi, .ok qj =>
          if sharesEdge qi qj then
            match loopK quadrilaterals i j quadrilaterals.length (j + 1) with
            | .ok (some b) => .ok (some b)
            | .ok none => loopJ quadrilaterals i fuel (j + 1)
            | .error e => .error e
          else loopJ quadrilaterals i fuel (j + 1)
        | .error e, _ => .error e
        | _, .error e => .error e
    else .ok none

/-- The loop `for (i = ...; i < quadrilaterals.size(); i++)`, entered with
the given `i`. -/
def loopI (quadrilaterals : List Quad) :
    Nat → Nat → Except Fault (Option Bool)
  | fuel, i =>
    if i < quadrilaterals.length then
      match fuel with
      | 0 => .error .outOfFuel
      | fuel + 1 =>
        match loopJ quadrilaterals i quadrilaterals.length (i + 1) with
        | .ok (some b) => .ok (some b)
        | .ok none => loopI quadrilaterals fuel (i + 1)
        | .error e => .error e
    else .ok none

/-- Detect if a cube is formed by the detected quadrilaterals: the three
nested loops, then `return false`. Every loop is given as many iterations as
the list has elements. -/
def detectCube (quadrilaterals : List Quad) : Except Fault Bool :=
  match loopI quadrilaterals quadrilaterals.length 0 with
  | .ok (some b) => .ok b
  | .ok none => .ok false
  | .error e => .error e

-- Equality of results of `detectCube` is decidable.
deriving instance DecidableEq for Except

/-! ## `findQuadrilaterals` (src/cube.cpp, lines 28-84; src/quad.cpp, lines 32-88)

The two copies of the function are the same token for token, so one
definition embeds both. -/

/-- The library primitives `findQuadrilaterals` calls, as arbitrary functions.
`Mat` is the image type and `Dbl` is `double` with the three operations the
function applies to it. Arguments that are the same constant at the only call
site and do not enter any property below (`RETR_LIST`, `CHAIN_APPROX_SIMPLE`,
the empty kernel `Mat()` and the anchor `Point(-1, -1)` of `dilate`, the array
counts of `mixChannels`) are left out. -/
structure Vision (Mat Dbl : Type) where
  /-- The call `medianBlur(image, timg, ksize)`: the new `timg`. -/
  medianBlur : Mat → Int → Mat
  /-- The declaration `Mat gray0(timg.size(), CV_8U)`. -/
  create8U : Mat → Mat
  /-- The call `mixChannels(&timg, 1, &gray0, 1, ch, 1)` with `ch = {c, 0}`: the new
  `gray0`, from `timg`, the old `gray0` and the two entries of `ch`. -/
  mixChannels : Mat → Mat → Int → Int → Mat
  /-- The call `Canny(gray0, gray, threshold1, threshold2, apertureSize)`: the new `gray`. -/
  Canny : Mat → Int → Int → Int → Mat
  /-- The call `dilate(gray, gray, Mat(), Point(-1, -1))`: the new `gray`. -/
  dilate : Mat → Mat
  /-- The expression `gray0 >= level`. -/
  thresholdGE : Mat → Int → Mat
  /-- The call `findContours(gray, contours, RETR_LIST, CHAIN_APPROX_SIMPLE)`: the new
  `contours`. -/
  findContours : Mat → List (List Point)
  /-- The call `arcLength(curve, closed)`. -/
  arcLength : List Point → Bool → Dbl
  /-- The call `approxPolyDP(curve, approx, epsilon, closed)`: the new `approx`. -/
  approxPolyDP : List Point → Dbl → Bool → List Point
  /-- The call `contourArea(contour)`. -/
  contourArea : List Point → Dbl
  /-- The call `isContourConvex(contour)`. -/
  isContourConvex : List Point → Bool
  /-- The call `fabs(x)`. -/
  fabs : Dbl → Dbl
  /-- The product `x * y` of two doubles. -/
  mul : Dbl → Dbl → Dbl
  /-- The comparison `x > y` of two doubles. -/
  gt : Dbl → Dbl → Bool
  /-- The conversion of an `int` literal to `double`. -/
  ofInt : Int → Dbl
  /-- The literal `0.02`. -/
  lit002 : Dbl

/-- The global `int thresh = 50`; no statement of the program assigns it. -/
def thresh : Int := 50

/-- The global `int N = 5`; no statement of the program assigns it. -/
def N : Int := 5

/-- The call `quadrilaterals.clear()`: the vector afterwards. -/
def clear {α : Type} (_v : List α) : List α := []

/-- The acceptance test
`approx.size() == 4 && fabs(contourArea(Mat(approx))) > 1000 && isContourConvex(Mat(approx))`. -/
def accepts {Mat Dbl : Type} (V : Vision Mat Dbl) (approx : List Point) : Bool :=
  decide (approx.length = 4) &&
    V.gt (V.fabs (V.contourArea approx)) (V.ofInt 1000) &&
    V.isContourConvex approx

/-- The body of the loop over `contours`: simplify `contours[i]` and push the
result when it passes the test. -/
def testContour {Mat Dbl : Type} (V : Vision Mat Dbl) (quadrilaterals : List Quad)
    (contour : List Point) : List Quad :=
  let approx := V.approxPolyDP contour (V.mul (V.arcLength contour true) V.lit002) true
  if accepts V approx then quadrilaterals ++ [approx] else quadrilaterals

/-- The body of the loop `for (int l = 0; l < N; l++)`: build `gray` for level
`l`, trace its contours and test each of them. -/
def levelPass {Mat Dbl : Type} (V : Vision Mat Dbl) (gray0 : Mat)
    (quadrilaterals : List Quad) (l : Nat) : List Quad :=
  let gray :=
    if l = 0 then V.dilate (V.Canny gray0 5 thresh 5)
    else V.thresholdGE gray0 (((l : Int) + 1) * 255 / N)
  (V.findContours gray).foldl (testContour V) quadrilaterals

/-- The body of the loop `for (int c = 0; c < 3; c++)`, on the pair of
`gray0` and `quadrilaterals`. -/
def channelPass {Mat Dbl : Type} (V : Vision Mat Dbl) (timg : Mat)
    (st : Mat × List Quad) (c : Nat) : Mat × List Quad :=
  let gray0 := V.mixChannels timg st.1 c 0
  (gray0, (List.range N.toNat).foldl (levelPass V gray0) st.2)

/-- Returns the sequence of quadrilaterals detected on the image: the value of
the in-out parameter `quadrilaterals` on return, from its value on entry. -/
def findQuadrilaterals {Mat Dbl : Type} (V : Vision Mat Dbl) (image : Mat)
    (quadrilaterals : List Quad) : List Quad :=
  let quadrilaterals := clear quadrilaterals
  let timg := V.medianBlur image 9
  let gray0 := V.create8U timg
  ((List.range 3).foldl (channelPass V timg) (gray0, quadrilaterals)).2

/-! ## Notions of the specification -/

/-- The number of position pairs `(a, b)` with `q1[a]` and `q2[b]` the same
point. -/
def matchingPairs (q1 q2 : Quad) : Nat :=
  (Finset.univ.filter
    (fun ab : Fin q1.length × Fin q2.length => q1.get ab.1 = q2.get ab.2)).card

/-- There are indices `i < j < k` into the list such that `sharesEdge` holds
for candidates `i` and `j`, and for candidates `i` and `k` or for candidates
`j` and `k`. -/
def OrderedTriple (qs : List Quad) : Prop :=
  ∃ (i j k : Nat) (a b c : Quad), i < j ∧ j < k ∧
    qs[i]? = some a ∧ qs[j]? = some b ∧ qs[k]? = some c ∧
    sharesEdge a b = true ∧ (sharesEdge a c = true ∨ sharesEdge b c = true)

/-- There are three candidates at distinct positions such that `sharesEdge`
holds for all three pairs among them. -/
def Clique3 (qs : List Quad) : Prop :=
  ∃ (p1 p2 p3 : Nat) (a b c : Quad), p1 ≠ p2 ∧ p1 ≠ p3 ∧ p2 ≠ p3 ∧
    qs[p1]? = some a ∧ qs[p2]? = some b ∧ qs[p3]? = some c ∧
    sharesEdge a b = true ∧ sharesEdge a c = true ∧ sharesEdge b c = true

/-- There are three candidates at distinct positions such that one of them
(the one at `p1`) shares an edge with each of the other two. -/
def ChainTriple (qs : List Quad) : Prop :=
  ∃ (p1 p2 p3 : Nat) (a b c : Quad), p1 ≠ p2 ∧ p1 ≠ p3 ∧ p2 ≠ p3 ∧
    qs[p1]? = some a ∧ qs[p2]? = some b ∧ qs[p3]? = some c ∧
    sharesEdge a b = true ∧ sharesEdge a c = true

/-- No point is a vertex of two candidates at different positions. -/
def NoSharedVertex (qs : List Quad) : Prop :=
  ∀ (i j : Nat) (a b : Quad), i ≠ j → qs[i]? = some a → qs[j]? = some b →
    ∀ p ∈ a, p ∉ b

/-! ## Auxiliary definitions of the proofs -/

/-- The test `sharesEdge(quadrilaterals[i], quadrilaterals[j])` on positions. -/
def adj (qs : List Quad) (i j : Nat) : Bool :=
  sharesEdge (qs.getD i []) (qs.getD j [])

/-- The condition under which the triple `(i, j, k)` makes `detectCube`
return true. -/
def Hit (qs : List Quad) (i j k : Nat) : Prop :=
  adj qs i j = true ∧ (adj qs i k = true ∨ adj qs j k = true)

/-- The three properties of an accepted polygon: four vertices, unsigned area
above 1000, convex. -/
def Accepted {Mat Dbl : Type} (V : Vision Mat Dbl) (q : Quad) : Prop :=
  q.length = 4 ∧ V.gt (V.fabs (V.contourArea q)) (V.ofInt 1000) = true ∧
    V.isContourConvex q = true

/-! ## Sample data -/

/-- Top face of a projected cube; the three faces meet at `(60, 60)`. -/
def faceTop : Quad := [⟨60, 60⟩, ⟨8, 30⟩, ⟨60, 0⟩, ⟨112, 30⟩]

/-- Right face of the projected cube. -/
def faceRight : Quad := [⟨60, 60⟩, ⟨112, 30⟩, ⟨112, 90⟩, ⟨60, 120⟩]

/-- Left face of the projected cube. -/
def faceLeft : Quad := [⟨60, 60⟩, ⟨60, 120⟩, ⟨8, 90⟩, ⟨8, 30⟩]

/-- First of three squares of side 40 in a row. -/
def tileLeft : Quad := [⟨0, 0⟩, ⟨40, 0⟩, ⟨40, 40⟩, ⟨0, 40⟩]

/-- Second square of the row: shares an edge with each neighbour. -/
def tileMid : Quad := [⟨40, 0⟩, ⟨80, 0⟩, ⟨80, 40⟩, ⟨40, 40⟩]

/-- Third square of the row: has no vertex in common with `tileLeft`. -/
def tileRight : Quad := [⟨80, 0⟩, ⟨120, 0⟩, ⟨120, 40⟩, ⟨80, 40⟩]

/-- A square touching `tileLeft` in the single corner `(40, 40)`. -/
def tileCorner : Quad := [⟨40, 40⟩, ⟨80, 40⟩, ⟨80, 80⟩, ⟨40, 80⟩]

/-- A square far from all the others. -/
def tileFar : Quad := [⟨200, 200⟩, ⟨240, 200⟩, ⟨240, 240⟩, ⟨200, 240⟩]

/-- A square of side 10, below the area threshold. -/
def tileSmall : Quad := [⟨0, 0⟩, ⟨10, 0⟩, ⟨10, 10⟩, ⟨0, 10⟩]

/-- The point `(0, 0)` 65536 times, then the point `(1, 1)`. -/
def longFirst : Quad := List.replicate 65536 ⟨0, 0⟩ ++ [⟨1, 1⟩]

/-- The point `(0, 0)` 65536 times, then the point `(1, 1)` twice. -/
def longSecond : Quad := List.replicate 65536 ⟨0, 0⟩ ++ [⟨1, 1⟩, ⟨1, 1⟩]

/-- Twice the signed area of a four-point polygon (shoelace formula). -/
def shoelace2 : List Point → Int
  | [p0, p1, p2, p3] =>
    (p0.x * p1.y - p1.x * p0.y) + (p1.x * p2.y - p2.x * p1.y) +
      (p2.x * p3.y - p3.x * p2.y) + (p3.x * p0.y - p0.x * p3.y)
  | _ => 0

/-- A small instance of the primitives, with images that are numbers and
doubles that are integers: the edge map of plane 1 holds three contours, every
other binary image holds none, and polygon simplification is the identity. -/
def toyVision : Vision Nat Int where
  medianBlur := fun image _ => image
  create8U := fun _ => 0
  mixChannels := fun timg _ c _ => timg + c.toNat
  Canny := fun gray0 _ _ _ => gray0
  dilate := fun gray => gray
  thresholdGE := fun _ _ => 0
  findContours := fun gray =>
    if gray = 1 then [tileSmall, tileLeft, [⟨0, 0⟩, ⟨100, 0⟩, ⟨0, 100⟩]] else []
  arcLength := fun _ _ => 0
  approxPolyDP := fun curve _ _ => curve
  contourArea := fun contour => shoelace2 contour / 2
  isContourConvex := fun _ => true
  fabs := fun x => |x|
  mul := fun x y => x * y
  gt := fun x y => decide (x > y)
  ofInt := fun n => n
  lit002 := 0

/-! ## Lemmas on `sharesEdge` -/

theorem normSq_nonneg (pt : Point) : 0 ≤ normSq pt := by
  unfold normSq
  nlinarith [mul_self_nonneg pt.x, mul_self_nonneg pt.y]

theorem normBelowEps_sub_iff (pt1 pt2 : Point) :
    normBelowEps (pt1 - pt2) = true ↔ pt1 = pt2 := by
  have hsub : pt1 - pt2 = ⟨pt1.x - pt2.x, pt1.y - pt2.y⟩ := rfl
  rw [hsub]
  simp only [normBelowEps, normSq, decide_eq_true_eq]
  constructor
  · intro h
    have hx : (pt1.x - pt2.x) * (pt1.x - pt2.x) = 0 := by
      nlinarith [mul_self_nonneg (pt1.x - pt2.x), mul_self_nonneg (pt1.y - pt2.y)]
    have hy : (pt1.y - pt2.y) * (pt1.y - pt2.y) = 0 := by
      nlinarith [mul_self_nonneg (pt1.x - pt2.x), mul_self_nonneg (pt1.y - pt2.y)]
    have hx' : pt1.x = pt2.x := by
      have := mul_self_eq_zero.mp hx
      omega
    have hy' : pt1.y = pt2.y := by
      have := mul_self_eq_zero.mp hy
      omega
    cases pt1; cases pt2; simp_all
  · rintro rfl
    simp

theorem wrapInt32_succ (x : Int) : wrapInt32 (wrapInt32 x + 1) = wrapInt32 (x + 1) := by
  unfold wrapInt32
  omega

theorem wrapInt32_of_lt (x : Int) (h0 : 0 ≤ x) (h1 : x < 2147483648) : wrapInt32 x = x := by
  unfold wrapInt32
  omega

theorem wrapInt32_eq_two_iff (n : Nat) : wrapInt32 n = 2 ↔ n % 4294967296 = 2 := by
  unfold wrapInt32
  omega

theorem foldl_sharedStep (pt1 : Point) (quad2 : Quad) (s : Int) :
    quad2.foldl (sharedStep pt1) (wrapInt32 s) = wrapInt32 (s + quad2.count pt1) := by
  induction quad2 generalizing s with
  | nil => simp
  | cons pt2 rest ih =>
    rw [List.foldl_cons, List.count_cons]
    by_cases h : pt1 = pt2
    · subst h
      have hstep : sharedStep pt1 (wrapInt32 s) pt1 = wrapInt32 (s + 1) := by
        simp [sharedStep, (normBelowEps_sub_iff pt1 pt1).mpr rfl, wrapInt32_succ]
      rw [hstep, ih]
      congr 1
      simp
      omega
    · have hn : normBelowEps (pt1 - pt2) = false := by
        rw [← Bool.not_eq_true, normBelowEps_sub_iff]; exact h
      have h2 : (pt2 == pt1) = false := by
        simp; exact fun e => h e.symm
      have hstep : sharedStep pt1 (wrapInt32 s) pt2 = wrapInt32 s := by
        simp [sharedStep, hn]
      rw [hstep, ih]
      simp [h2]

theorem foldl_outer (quad1 quad2 : Quad) (s : Int) :
    quad1.foldl (fun s pt1 => quad2.foldl (sharedStep pt1) s) (wrapInt32 s)
      = wrapInt32 (s + ((quad1.map (fun pt1 => quad2.count pt1)).sum : Nat)) := by
  induction quad1 generalizing s with
  | nil => simp
  | cons pt1 rest ih =>
    rw [List.foldl_cons, foldl_sharedStep, ih, List.map_cons, List.sum_cons]
    congr 1
    push_cast
    omega

theorem sharedPoints_eq_sum (quad1 quad2 : Quad) :
    sharedPoints quad1 quad2
      = wrapInt32 ((quad1.map (fun pt1 => quad2.count pt1)).sum : Nat) := by
  unfold sharedPoints
  have h := foldl_outer quad1 quad2 0
  have h0 : wrapInt32 0 = 0 := by decide
  rw [h0] at h
  rw [h]
  simp

theorem count_eq_sum_map (quad2 : Quad) (pt1 : Point) :
    quad2.count pt1 = (quad2.map (fun pt2 => if pt1 = pt2 then 1 else 0)).sum := by
  induction quad2 with
  | nil => simp
  | cons pt2 rest ih =>
    rw [List.count_cons, List.map_cons, List.sum_cons, ih]
    by_cases e : pt1 = pt2
    · subst e; simp; omega
    · have h2 : (pt2 == pt1) = false := by
        simp; exact fun e' => e e'.symm
      simp [e, h2]

theorem count_eq_sum_fin (quad2 : Quad) (pt1 : Point) :
    quad2.count pt1 = ∑ b : Fin quad2.length, if pt1 = quad2.get b then 1 else 0 := by
  simp only [List.get_eq_getElem]
  rw [Fin.sum_univ_get' quad2 (fun pt2 => if pt1 = pt2 then 1 else 0)]
  exact count_eq_sum_map quad2 pt1

theorem matchingPairs_eq_sum (quad1 quad2 : Quad) :
    matchingPairs quad1 quad2 = (quad1.map (fun pt1 => quad2.count pt1)).sum := by
  unfold matchingPairs
  rw [Finset.card_filter, Fintype.sum_prod_type]
  rw [← Fin.sum_univ_get' quad1 (fun pt1 => quad2.count pt1)]
  apply Finset.sum_congr rfl
  intro a _
  rw [count_eq_sum_fin]
  simp

theorem sharedPoints_eq_matchingPairs (quad1 quad2 : Quad) :
    sharedPoints quad1 quad2 = wrapInt32 (matchingPairs quad1 quad2) := by
  rw [sharedPoints_eq_sum, matchingPairs_eq_sum]

theorem sharesEdge_iff_mod (quad1 quad2 : Quad) :
    sharesEdge quad1 quad2 = true ↔ matchingPairs quad1 quad2 % 4294967296 = 2 := by
  unfold sharesEdge
  rw [sharedPoints_eq_matchingPairs, beq_iff_eq, wrapInt32_eq_two_iff]

theorem sharesEdge_eq_false_iff_mod (quad1 quad2 : Quad) :
    sharesEdge quad1 quad2 = false ↔ matchingPairs quad1 quad2 % 4294967296 ≠ 2 := by
  rw [← Bool.not_eq_true, sharesEdge_iff_mod]

theorem matchingPairs_le_mul (quad1 quad2 : Quad) :
    matchingPairs quad1 quad2 ≤ quad1.length * quad2.length := by
  rw [matchingPairs_eq_sum]
  induction quad1 with
  | nil => simp
  | cons pt1 rest ih =>
    rw [List.map_cons, List.sum_cons, List.length_cons, Nat.succ_mul]
    have := List.count_le_length pt1 quad2
    omega

theorem matchingPairs_long (n : Nat) (p q : Point) (h : p ≠ q) :
    matchingPairs (List.replicate n p ++ [q]) (List.replicate n p ++ [q, q]) = n * n + 2 := by
  have hqp : q ≠ p := fun e => h e.symm
  have h1 : List.count p (List.replicate n p ++ [q, q]) = n := by
    simp [List.count_append, List.count_replicate, List.count_cons, hqp]
  have h2 : List.count q (List.replicate n p ++ [q, q]) = 2 := by
    simp [List.count_append, List.count_replicate, List.count_cons, h]
  rw [matchingPairs_eq_sum, List.map_append, List.sum_append, List.map_replicate,
    List.sum_replicate, List.map_singleton, List.sum_singleton, h1, h2]
  simp

theorem matchingPairs_comm (a b : Quad) : matchingPairs a b = matchingPairs b a := by
  unfold matchingPairs
  rw [Finset.card_filter, Finset.card_filter, Fintype.sum_prod_type, Fintype.sum_prod_type,
    Finset.sum_comm]
  apply Finset.sum_congr rfl
  intro y _
  apply Finset.sum_congr rfl
  intro x _
  simp only [eq_comm]

theorem length_le_matchingPairs_self (q : Quad) : q.length ≤ matchingPairs q q := by
  rw [matchingPairs_eq_sum]
  have h := List.length_le_sum_of_one_le (q.map (fun pt1 => q.count pt1)) (by
    intro i hi
    rw [List.mem_map] at hi
    obtain ⟨p, hp, rfl⟩ := hi
    exact List.count_pos_iff.mpr hp)
  simpa using h

theorem sharesEdge_comm (a b : Quad) : sharesEdge a b = sharesEdge b a := by
  unfold sharesEdge
  rw [sharedPoints_eq_matchingPairs, sharedPoints_eq_matchingPairs, matchingPairs_comm]

/-! ## Lemmas on the loops of `detectCube` -/

theorem readAt_eq (qs : List Quad) (i : Nat) (h : i < qs.length) :
    readAt qs i = .ok (qs.getD i []) := by
  simp [readAt, List.getD, List.getElem?_eq_getElem h]

theorem loopK_eq (qs : List Quad) (i j : Nat) (hi : i < qs.length) (hj : j < qs.length) :
    ∀ fuel k, qs.length - k ≤ fuel →
      ((∃ k', k ≤ k' ∧ k' < qs.length ∧ (adj qs i k' = true ∨ adj qs j k' = true)) →
        loopK qs i j fuel k = .ok (some true)) ∧
      ((∀ k', k ≤ k' → k' < qs.length → adj qs i k' = false ∧ adj qs j k' = false) →
        loopK qs i j fuel k = .ok none) := by
  intro fuel
  induction fuel with
  | zero =>
    intro k hk
    have hk' : ¬ k < qs.length := by omega
    constructor
    · rintro ⟨k', h1, h2, _⟩; omega
    · intro _; unfold loopK; simp [hk']
  | succ fuel ih =>
    intro k hk
    by_cases hlt : k < qs.length
    · have hstep : loopK qs i j (fuel + 1) k =
          if adj qs i k then .ok (some true)
          else if adj qs j k then .ok (some true)
          else loopK qs i j fuel (k + 1) := by
        rw [loopK]
        simp only [hlt, if_true, readAt_eq qs i hi, readAt_eq qs k hlt, readAt_eq qs j hj, adj]
      rw [hstep]
      have ih' := ih (k + 1) (by omega)
      constructor
      · rintro ⟨k', h1, h2, h3⟩
        by_cases e1 : adj qs i k = true
        · simp [e1]
        · by_cases e2 : adj qs j k = true
          · simp [e2]
          · simp only [e1, e2, if_false, Bool.false_eq_true]
            apply ih'.1
            refine ⟨k', ?_, h2, h3⟩
            rcases Nat.eq_or_lt_of_le h1 with e | e
            · subst e; rcases h3 with h3 | h3 <;> contradiction
            · omega
      · intro hall
        have := hall k (le_refl k) hlt
        simp only [this.1, this.2, if_false, Bool.false_eq_true]
        apply ih'.2
        intro k' h1 h2
        exact hall k' (by omega) h2
    · constructor
      · rintro ⟨k', h1, h2, _⟩; omega
      · intro _; unfold loopK; simp [hlt]

theorem loopK_cases (qs : List Quad) (i j : Nat) (hi : i < qs.length) (hj : j < qs.length) :
    (loopK qs i j qs.length (j + 1) = .ok (some true) ∧
        ∃ k, j < k ∧ k < qs.length ∧ (adj qs i k = true ∨ adj qs j k = true)) ∨
    (loopK qs i j qs.length (j + 1) = .ok none ∧
        ∀ k, j < k → k < qs.length → ¬ (adj qs i k = true ∨ adj qs j k = true)) := by
  have h := loopK_eq qs i j hi hj qs.length (j + 1) (by omega)
  by_cases hex : ∃ k, j < k ∧ k < qs.length ∧ (adj qs i k = true ∨ adj qs j k = true)
  · left
    obtain ⟨k, h1, h2, h3⟩ := hex
    exact ⟨h.1 ⟨k, h1, h2, h3⟩, k, h1, h2, h3⟩
  · right
    have hall : ∀ k, j < k → k < qs.length → ¬ (adj qs i k = true ∨ adj qs j k = true) :=
      fun k h1 h2 h3 => hex ⟨k, h1, h2, h3⟩
    refine ⟨h.2 ?_, hall⟩
    intro k h1 h2
    have := hall k h1 h2
    simpa using this

theorem loopJ_eq (qs : List Quad) (i : Nat) (hi : i < qs.length) :
    ∀ fuel j, qs.length - j ≤ fuel →
      ((∃ j' k, j ≤ j' ∧ j' < k ∧ k < qs.length ∧ Hit qs i j' k) →
        loopJ qs i fuel j = .ok (some true)) ∧
      ((∀ j' k, j ≤ j' → j' < k → k < qs.length → ¬ Hit qs i j' k) →
        loopJ qs i fuel j = .ok none) := by
  intro fuel
  induction fuel with
  | zero =>
    intro j hj
    have hj' : ¬ j < qs.length := by omega
    constructor
    · rintro ⟨j', k, h1, h2, h3, _⟩; omega
    · intro _; unfold loopJ; simp [hj']
  | succ fuel ih =>
    intro j hj
    by_cases hlt : j < qs.length
    · have hstep : loopJ qs i (fuel + 1) j =
          if adj qs i j then
            match loopK qs i j qs.length (j + 1) with
            | .ok (some b) => .ok (some b)
            | .ok none => loopJ qs i fuel (j + 1)
            | .error e => .error e
          else loopJ qs i fuel (j + 1) := by
        rw [loopJ]
        simp only [hlt, if_true, readAt_eq qs i hi, readAt_eq qs j hlt, adj]
      rw [hstep]
      have ih' := ih (j + 1) (by omega)
      by_cases e1 : adj qs i j = true
      · simp only [e1, if_true]
        rcases loopK_cases qs i j hi hlt with ⟨hk, k, h1, h2, h3⟩ | ⟨hk, hall⟩
        · rw [hk]
          constructor
          · intro _; rfl
          · intro hno
            exact absurd ⟨e1, h3⟩ (hno j k (le_refl j) h1 h2)
        · rw [hk]
          constructor
          · rintro ⟨j', k, h1, h2, h3, h4⟩
            apply ih'.1
            refine ⟨j', k, ?_, h2, h3, h4⟩
            rcases Nat.eq_or_lt_of_le h1 with e | e
            · subst e; exact absurd h4.2 (hall k h2 h3)
            · omega
          · intro hno
            apply ih'.2
            intro j' k h1 h2 h3
            exact hno j' k (by omega) h2 h3
      · simp only [e1, if_false, Bool.false_eq_true]
        constructor
        · rintro ⟨j', k, h1, h2, h3, h4⟩
          apply ih'.1
          refine ⟨j', k, ?_, h2, h3, h4⟩
          rcases Nat.eq_or_lt_of_le h1 with e | e
          · subst e; exact absurd h4.1 e1
          · omega
        · intro hno
          apply ih'.2
          intro j' k h1 h2 h3
          exact hno j' k (by omega) h2 h3
    · constructor
      · rintro ⟨j', k, h1, h2, h3, _⟩; omega
      · intro _; unfold loopJ; simp [hlt]

theorem loopJ_cases (qs : List Quad) (i : Nat) (hi : i < qs.length) :
    (loopJ qs i qs.length (i + 1) = .ok (some true) ∧
        ∃ j k, i < j ∧ j < k ∧ k < qs.length ∧ Hit qs i j k) ∨
    (loopJ qs i qs.length (i + 1) = .ok none ∧
        ∀ j k, i < j → j < k → k < qs.length → ¬ Hit qs i j k) := by
  have h := loopJ_eq qs i hi qs.length (i + 1) (by omega)
  by_cases hex : ∃ j k, i < j ∧ j < k ∧ k < qs.length ∧ Hit qs i j k
  · left
    obtain ⟨j, k, h1, h2, h3, h4⟩ := hex
    exact ⟨h.1 ⟨j, k, h1, h2, h3, h4⟩, j, k, h1, h2, h3, h4⟩
  · right
    have hall : ∀ j k, i < j → j < k → k < qs.length → ¬ Hit qs i j k :=
      fun j k h1 h2 h3 h4 => hex ⟨j, k, h1, h2, h3, h4⟩
    exact ⟨h.2 hall, hall⟩

theorem loopI_eq (qs : List Quad) :
    ∀ fuel i, qs.length - i ≤ fuel →
      ((∃ i' j k, i ≤ i' ∧ i' < j ∧ j < k ∧ k < qs.length ∧ Hit qs i' j k) →
        loopI qs fuel i = .ok (some true)) ∧
      ((∀ i' j k, i ≤ i' → i' < j → j < k → k < qs.length → ¬ Hit qs i' j k) →
        loopI qs fuel i = .ok none) := by
  intro fuel
  induction fuel with
  | zero =>
    intro i hi
    have hi' : ¬ i < qs.length := by omega
    constructor
    · rintro ⟨i', j, k, h1, h2, h3, h4, _⟩; omega
    · intro _; unfold loopI; simp [hi']
  | succ fuel ih =>
    intro i hi
    by_cases hlt : i < qs.length
    · have hstep : loopI qs (fuel + 1) i =
          match loopJ qs i qs.length (i + 1) with
          | .ok (some b) => .ok (some b)
          | .ok none => loopI qs fuel (i + 1)
          | .error e => .error e := by
        rw [loopI]
        simp only [hlt, if_true]
      rw [hstep]
      have ih' := ih (i + 1) (by omega)
      rcases loopJ_cases qs i hlt with ⟨hj, j, k, h1, h2, h3, h4⟩ | ⟨hj, hall⟩
      · rw [hj]
        constructor
        · intro _; rfl
        · intro hno
          exact absurd h4 (hno i j k (le_refl i) h1 h2 h3)
      · rw [hj]
        constructor
        · rintro ⟨i', j, k, h1, h2, h3, h4, h5⟩
          apply ih'.1
          refine ⟨i', j, k, ?_, h2, h3, h4, h5⟩
          rcases Nat.eq_or_lt_of_le h1 with e | e
          · subst e; exact absurd h5 (hall j k h2 h3 h4)
          · omega
        · intro hno
          apply ih'.2
          intro i' j k h1 h2 h3 h4
          exact hno i' j k (by omega) h2 h3 h4
    · constructor
      · rintro ⟨i', j, k, h1, h2, h3, h4, _⟩; omega
      · intro _; unfold loopI; simp [hlt]

theorem detectCube_true_of_hit (qs : List Quad)
    (h : ∃ i j k, i < j ∧ j < k ∧ k < qs.length ∧ Hit qs i j k) :
    detectCube qs = .ok true := by
  obtain ⟨i, j, k, h1, h2, h3, h4⟩ := h
  have := (loopI_eq qs qs.length 0 (by omega)).1 ⟨i, j, k, Nat.zero_le i, h1, h2, h3, h4⟩
  simp [detectCube, this]

theorem detectCube_false_of_no_hit (qs : List Quad)
    (h : ¬ ∃ i j k, i < j ∧ j < k ∧ k < qs.length ∧ Hit qs i j k) :
    detectCube qs = .ok false := by
  have := (loopI_eq qs qs.length 0 (by omega)).2
    (fun i j k _ h1 h2 h3 h4 => h ⟨i, j, k, h1, h2, h3, h4⟩)
  simp [detectCube, this]

theorem getElem_opt_getD (qs : List Quad) (i : Nat) (h : i < qs.length) :
    qs[i]? = some (qs.getD i []) := by
  simp [List.getD, List.getElem?_eq_getElem h]

theorem getD_of_getElem_opt (qs : List Quad) (i : Nat) (a : Quad) (h : qs[i]? = some a) :
    i < qs.length ∧ qs.getD i [] = a := by
  have hlt : i < qs.length := by
    by_contra hn
    rw [List.getElem?_eq_none (by omega)] at h
    cases h
  refine ⟨hlt, ?_⟩
  rw [getElem_opt_getD qs i hlt] at h
  exact Option.some.inj h

theorem orderedTriple_iff_hit (qs : List Quad) :
    OrderedTriple qs ↔ ∃ i j k, i < j ∧ j < k ∧ k < qs.length ∧ Hit qs i j k := by
  constructor
  · rintro ⟨i, j, k, a, b, c, h1, h2, ha, hb, hc, hab, hc'⟩
    obtain ⟨_, rfl⟩ := getD_of_getElem_opt qs i a ha
    obtain ⟨_, rfl⟩ := getD_of_getElem_opt qs j b hb
    obtain ⟨hk, rfl⟩ := getD_of_getElem_opt qs k c hc
    exact ⟨i, j, k, h1, h2, hk, hab, hc'⟩
  · rintro ⟨i, j, k, h1, h2, h3, hab, hc⟩
    exact ⟨i, j, k, _, _, _, h1, h2, getElem_opt_getD qs i (by omega),
      getElem_opt_getD qs j (by omega), getElem_opt_getD qs k h3, hab, hc⟩

theorem detectCube_eq_true_iff (qs : List Quad) :
    detectCube qs = .ok true ↔ OrderedTriple qs := by
  rw [orderedTriple_iff_hit]
  constructor
  · intro h
    by_contra hn
    rw [detectCube_false_of_no_hit qs hn] at h
    cases h
  · exact detectCube_true_of_hit qs

theorem detectCube_eq_false_iff (qs : List Quad) :
    detectCube qs = .ok false ↔ ¬ OrderedTriple qs := by
  rw [orderedTriple_iff_hit]
  constructor
  · intro h hn
    rw [detectCube_true_of_hit qs hn] at h
    cases h
  · exact detectCube_false_of_no_hit qs

theorem detectCube_ok (qs : List Quad) : ∃ b, detectCube qs = .ok b := by
  by_cases h : OrderedTriple qs
  · exact ⟨true, (detectCube_eq_true_iff qs).mpr h⟩
  · exact ⟨false, (detectCube_eq_false_iff qs).mpr h⟩

theorem clique3_sorted (qs : List Quad) (h : Clique3 qs) :
    ∃ (i j k : Nat) (a b c : Quad), i < j ∧ j < k ∧
      qs[i]? = some a ∧ qs[j]? = some b ∧ qs[k]? = some c ∧
      sharesEdge a b = true ∧ sharesEdge a c = true ∧ sharesEdge b c = true := by
  obtain ⟨p1, p2, p3, a, b, c, n12, n13, n23, ha, hb, hc, hab, hac, hbc⟩ := h
  have hba : sharesEdge b a = true := by rw [sharesEdge_comm]; exact hab
  have hca : sharesEdge c a = true := by rw [sharesEdge_comm]; exact hac
  have hcb : sharesEdge c b = true := by rw [sharesEdge_comm]; exact hbc
  rcases Nat.lt_or_gt_of_ne n12 with l12 | l12 <;>
  rcases Nat.lt_or_gt_of_ne n13 with l13 | l13 <;>
  rcases Nat.lt_or_gt_of_ne n23 with l23 | l23
  · exact ⟨p1, p2, p3, a, b, c, l12, l23, ha, hb, hc, hab, hac, hbc⟩
  · exact ⟨p1, p3, p2, a, c, b, l13, l23, ha, hc, hb, hac, hab, hcb⟩
  · omega
  · exact ⟨p3, p1, p2, c, a, b, l13, l12, hc, ha, hb, hca, hcb, hab⟩
  · exact ⟨p2, p1, p3, b, a, c, l12, l13, hb, ha, hc, hba, hbc, hac⟩
  · omega
  · exact ⟨p2, p3, p1, b, c, a, l23, l13, hb, hc, ha, hbc, hba, hca⟩
  · exact ⟨p3, p2, p1, c, b, a, l23, l12, hc, hb, ha, hcb, hca, hba⟩

theorem orderedTriple_of_clique3 (qs : List Quad) (h : Clique3 qs) : OrderedTriple qs := by
  obtain ⟨i, j, k, a, b, c, h1, h2, ha, hb, hc, hab, hac, _⟩ := clique3_sorted qs h
  exact ⟨i, j, k, a, b, c, h1, h2, ha, hb, hc, hab, Or.inl hac⟩

theorem chainTriple_of_orderedTriple (qs : List Quad) (h : OrderedTriple qs) :
    ChainTriple qs := by
  obtain ⟨i, j, k, a, b, c, h1, h2, ha, hb, hc, hab, hc'⟩ := h
  rcases hc' with hac | hbc
  · exact ⟨i, j, k, a, b, c, by omega, by omega, by omega, ha, hb, hc, hab, hac⟩
  · refine ⟨j, i, k, b, a, c, by omega, by omega, by omega, hb, ha, hc, ?_, hbc⟩
    rw [sharesEdge_comm]; exact hab

theorem sharesEdge_eq_false_of_disjoint (a b : Quad) (h : ∀ p ∈ a, p ∉ b) :
    sharesEdge a b = false := by
  have h0 : matchingPairs a b = 0 := by
    rw [matchingPairs_eq_sum]
    apply List.sum_eq_zero
    intro n hn
    rw [List.mem_map] at hn
    obtain ⟨p, hp, rfl⟩ := hn
    exact List.count_eq_zero.mpr (h p hp)
  rw [sharesEdge_eq_false_iff_mod, h0]
  decide

/-! ## Lemmas on `findQuadrilaterals` -/

theorem foldl_preserves {α β : Type} (P : α → Prop) (f : α → β → α)
    (hf : ∀ s x, P s → P (f s x)) (xs : List β) (s : α) (hs : P s) :
    P (xs.foldl f s) := by
  induction xs generalizing s with
  | nil => exact hs
  | cons x rest ih => exact ih (f s x) (hf s x hs)

theorem testContour_accepted {Mat Dbl : Type} (V : Vision Mat Dbl) (quads : List Quad) (contour : List Point)
    (h : ∀ q ∈ quads, Accepted V q) : ∀ q ∈ testContour V quads contour, Accepted V q := by
  unfold testContour
  simp only
  split
  · rename_i hacc
    intro q hq
    rw [List.mem_append] at hq
    rcases hq with hq | hq
    · exact h q hq
    · rw [List.mem_singleton] at hq
      subst hq
      simpa [accepts, Accepted, and_assoc] using hacc
  · exact h

theorem levelPass_accepted {Mat Dbl : Type} (V : Vision Mat Dbl) (gray0 : Mat) (quads : List Quad) (l : Nat)
    (h : ∀ q ∈ quads, Accepted V q) : ∀ q ∈ levelPass V gray0 quads l, Accepted V q := by
  unfold levelPass
  exact foldl_preserves (fun qs : List Quad => ∀ q ∈ qs, Accepted V q) _
    (fun s x hs => testContour_accepted V s x hs) _ _ h

theorem channelPass_accepted {Mat Dbl : Type} (V : Vision Mat Dbl) (timg : Mat) (st : Mat × List Quad) (c : Nat)
    (h : ∀ q ∈ st.2, Accepted V q) : ∀ q ∈ (channelPass V timg st c).2, Accepted V q := by
  unfold channelPass
  exact foldl_preserves (fun qs : List Quad => ∀ q ∈ qs, Accepted V q) _
    (fun s x hs => levelPass_accepted V _ s x hs) _ _ h

/-! ## The claims -/

/-- C1. For every candidate list, `detectCube` returns true if and only if
there exist indices `i < j < k` into the list such that `sharesEdge` holds for
candidates `i` and `j` and for at least one of the pairs `(i, k)`, `(j, k)`;
otherwise it returns false. -/
theorem detectCube_iff_ordered_triple (qs : List Quad) :
    (detectCube qs = .ok true ↔ OrderedTriple qs) ∧
    (detectCube qs = .ok false ↔ ¬ OrderedTriple qs) :=
  ⟨detectCube_eq_true_iff qs, detectCube_eq_false_iff qs⟩

/-- C2 as stated fails: the two sequences have `2^32 + 2` position pairs
holding the same point, the 32-bit counter ends at 2, and `sharesEdge` returns
true. -/
theorem sharesEdge_not_iff_two_matching_pairs :
    ¬ (sharesEdge longFirst longSecond = true ↔ matchingPairs longFirst longSecond = 2) := by
  have hm : matchingPairs longFirst longSecond = 65536 * 65536 + 2 :=
    matchingPairs_long 65536 ⟨0, 0⟩ ⟨1, 1⟩ (by decide)
  intro h
  have h2 := h.mp ((sharesEdge_iff_mod longFirst longSecond).mpr (by rw [hm]))
  rw [hm] at h2
  omega

/-- C2, amended. For every two vertex sequences whose number of position pairs
holding the same point is below `2^31`, so that the counter does not overflow,
`sharesEdge` returns true if and only if that number is exactly 2; in
particular it returns false when that number is 0, 1, 3 or 4. -/
theorem sharesEdge_iff_two_matching_pairs (q1 q2 : Quad)
    (hlt : matchingPairs q1 q2 < 2147483648) :
    (sharesEdge q1 q2 = true ↔ matchingPairs q1 q2 = 2) ∧
    (matchingPairs q1 q2 ∈ [0, 1, 3, 4] → sharesEdge q1 q2 = false) := by
  constructor
  · rw [sharesEdge_iff_mod]
    omega
  · intro h
    simp only [List.mem_cons, List.mem_singleton, List.not_mem_nil, or_false] at h
    rw [sharesEdge_eq_false_iff_mod]
    omega

/-- Witness of the amended C2: two squares touching in a single corner have
one matching pair and do not share an edge; two squares with a common side
have two and do. -/
theorem sharesEdge_iff_two_matching_pairs_witness :
    (matchingPairs tileLeft tileCorner < 2147483648 ∧
      matchingPairs tileLeft tileCorner ∈ [0, 1, 3, 4] ∧
      sharesEdge tileLeft tileCorner = false) ∧
    (matchingPairs tileLeft tileMid < 2147483648 ∧
      (sharesEdge tileLeft tileMid = true ↔ matchingPairs tileLeft tileMid = 2)) :=
  ⟨⟨by decide, by decide,
      (sharesEdge_iff_two_matching_pairs tileLeft tileCorner (by decide)).2 (by decide)⟩,
    by decide, (sharesEdge_iff_two_matching_pairs tileLeft tileMid (by decide)).1⟩

/-- C3. `sharesEdge` is symmetric: for every two vertex sequences, of any
lengths and with or without repeated points, `sharesEdge a b` equals
`sharesEdge b a`. -/
theorem sharesEdge_symmetric (a b : Quad) : sharesEdge a b = sharesEdge b a :=
  sharesEdge_comm a b

/-- C4. For every sequence `q` of exactly 4 points, pairwise distinct or not,
`sharesEdge q q` returns false. -/
theorem sharesEdge_self_eq_false (q : Quad) (h : q.length = 4) :
    sharesEdge q q = false := by
  rw [sharesEdge_eq_false_iff_mod]
  have h1 := length_le_matchingPairs_self q
  have h2 := matchingPairs_le_mul q q
  rw [h] at h1 h2
  omega

/-- Witness of C4: a face compared with itself, and a degenerate quadrilateral
with a repeated point compared with itself. -/
theorem sharesEdge_self_eq_false_witness :
    (faceTop.length = 4 ∧ sharesEdge faceTop faceTop = false) ∧
    sharesEdge [⟨0, 0⟩, ⟨0, 0⟩, ⟨40, 0⟩, ⟨0, 40⟩] [⟨0, 0⟩, ⟨0, 0⟩, ⟨40, 0⟩, ⟨0, 40⟩] = false :=
  ⟨⟨by decide, sharesEdge_self_eq_false faceTop (by decide)⟩,
    sharesEdge_self_eq_false _ (by decide)⟩

/-- C5. For every candidate list that holds, at three distinct positions in
any order and with any other candidates around them, three quadrilaterals of
which each pair shares an edge, `detectCube` returns true. -/
theorem detectCube_of_three_pairwise_adjacent (qs : List Quad) (p1 p2 p3 : Nat)
    (a b c : Quad) (h12 : p1 ≠ p2) (h13 : p1 ≠ p3) (h23 : p2 ≠ p3)
    (ha : qs[p1]? = some a) (hb : qs[p2]? = some b) (hc : qs[p3]? = some c)
    (hab : sharesEdge a b = true) (hac : sharesEdge a c = true)
    (hbc : sharesEdge b c = true) :
    detectCube qs = .ok true :=
  (detectCube_eq_true_iff qs).mpr (orderedTriple_of_clique3 qs
    ⟨p1, p2, p3, a, b, c, h12, h13, h23, ha, hb, hc, hab, hac, hbc⟩)

/-- Witness of C5: the three visible faces of a projected cube, out of order
and with two unrelated squares among them. -/
theorem detectCube_of_three_pairwise_adjacent_witness :
    (sharesEdge faceRight faceLeft = true ∧ sharesEdge faceRight faceTop = true ∧
      sharesEdge faceLeft faceTop = true) ∧
    detectCube [tileRight, faceLeft, faceTop, tileLeft, faceRight] = .ok true :=
  ⟨by decide,
    detectCube_of_three_pairwise_adjacent [tileRight, faceLeft, faceTop, tileLeft, faceRight]
      4 1 2 faceRight faceLeft faceTop (by decide) (by decide) (by decide) rfl rfl rfl
      (by decide) (by decide) (by decide)⟩

/-- C6. For every candidate list with fewer than 3 elements, `detectCube`
returns false, and no read of the list is out of range (the result is a
returned value, not a fault). -/
theorem detectCube_fewer_than_three (qs : List Quad) (h : qs.length < 3) :
    detectCube qs = .ok false := by
  rw [detectCube_eq_false_iff]
  rintro ⟨i, j, k, a, b, c, h1, h2, _, _, hc, _⟩
  have := (getD_of_getElem_opt qs k c hc).1
  omega

/-- Witness of C6: two adjacent squares alone. -/
theorem detectCube_fewer_than_three_witness :
    [tileLeft, tileMid].length < 3 ∧ detectCube [tileLeft, tileMid] = .ok false :=
  ⟨by decide, detectCube_fewer_than_three [tileLeft, tileMid] (by decide)⟩

/-- C7. For every candidate list in which no point is a vertex of two
candidates at different positions, `detectCube` returns false. -/
theorem detectCube_no_shared_vertex (qs : List Quad) (h : NoSharedVertex qs) :
    detectCube qs = .ok false := by
  rw [detectCube_eq_false_iff]
  rintro ⟨i, j, k, a, b, c, h1, _, ha, hb, _, hab, _⟩
  have hf := sharesEdge_eq_false_of_disjoint a b (h i j a b (by omega) ha hb)
  rw [hf] at hab
  cases hab

/-- Witness of C7: three squares with pairwise disjoint vertex sets. -/
theorem detectCube_no_shared_vertex_witness :
    NoSharedVertex [tileLeft, tileRight, tileFar] ∧
    detectCube [tileLeft, tileRight, tileFar] = .ok false := by
  have hno : NoSharedVertex [tileLeft, tileRight, tileFar] := by
    intro i j a b hij ha hb
    have hi := (getD_of_getElem_opt _ i a ha).1
    have hj := (getD_of_getElem_opt _ j b hb).1
    simp only [List.length_cons, List.length_nil] at hi hj
    interval_cases i <;> interval_cases j <;> simp at ha hb hij <;>
      subst ha <;> subst hb <;> decide
  exact ⟨hno, detectCube_no_shared_vertex _ hno⟩

/-- C8. For every image and every behaviour of the vision primitives, every
polygon in the list produced by `findQuadrilaterals` has exactly 4 vertices,
has unsigned area above 1000 as reported by the area primitive, and is convex
as reported by the convexity primitive; and the list does not depend on what
the output vector held on entry, because it is cleared first. -/
theorem findQuadrilaterals_accepted {Mat Dbl : Type} (V : Vision Mat Dbl) (image : Mat)
    (previous : List Quad) :
    (∀ q ∈ findQuadrilaterals V image previous,
      q.length = 4 ∧ V.gt (V.fabs (V.contourArea q)) (V.ofInt 1000) = true ∧
        V.isContourConvex q = true) ∧
    findQuadrilaterals V image previous = findQuadrilaterals V image [] := by
  constructor
  · unfold findQuadrilaterals
    exact foldl_preserves (fun st : Mat × List Quad => ∀ q ∈ st.2, Accepted V q) _
      (fun s x hs => channelPass_accepted V _ s x hs) _ _ (by simp [clear])
  · rfl

/-- Witness of C8: with the sample primitives, the square of side 40 is found
and has the three properties; the small square and the triangle are not, and
neither is the square the vector held on entry. -/
theorem findQuadrilaterals_accepted_witness :
    findQuadrilaterals toyVision 1 [tileMid] = [tileLeft] ∧
    (tileLeft.length = 4 ∧
      toyVision.gt (toyVision.fabs (toyVision.contourArea tileLeft)) (toyVision.ofInt 1000)
        = true ∧
      toyVision.isContourConvex tileLeft = true) :=
  ⟨by decide, (findQuadrilaterals_accepted toyVision 1 [tileMid]).1 tileLeft (by decide)⟩

/-- C9, evaluated at the failing input. In the list left, right, middle the
middle square shares an edge with each of the other two, so the three are
chain-adjacent, and `detectCube` returns false; on the same three squares in
the order left, middle, right it returns true. -/
theorem detectCube_misses_chain_with_centre_last :
    ChainTriple [tileLeft, tileRight, tileMid] ∧
    detectCube [tileLeft, tileRight, tileMid] = .ok false ∧
    detectCube [tileLeft, tileMid, tileRight] = .ok true :=
  ⟨⟨2, 0, 1, tileMid, tileLeft, tileRight, by decide, by decide, by decide, rfl, rfl, rfl,
      by decide, by decide⟩, by decide, by decide⟩

/-- C10 as stated fails: on three squares in a row `detectCube` returns true,
and no three candidates pairwise share an edge. -/
theorem detectCube_not_iff_clique3 :
    ¬ (detectCube [tileLeft, tileMid, tileRight] = .ok true ↔
        Clique3 [tileLeft, tileMid, tileRight]) := by
  intro h
  obtain ⟨i, j, k, a, b, c, h1, h2, ha, hb, hc, _, hac, _⟩ :=
    clique3_sorted _ (h.mp (by decide))
  have hk := (getD_of_getElem_opt _ k c hc).1
  simp only [List.length_cons, List.length_nil] at hk
  have hi : i = 0 := by omega
  have hk' : k = 2 := by omega
  subst hi
  subst hk'
  simp at ha hc
  subst ha
  subst hc
  revert hac
  decide

/-- C10, amended. For every candidate list: if three candidates at distinct
positions pairwise share an edge, `detectCube` returns true; and if
`detectCube` returns true, there are three candidates at distinct positions
one of which shares an edge with each of the other two. -/
theorem detectCube_clique3_sound (qs : List Quad) :
    (Clique3 qs → detectCube qs = .ok true) ∧
    (detectCube qs = .ok true → ChainTriple qs) :=
  ⟨fun h => (detectCube_eq_true_iff qs).mpr (orderedTriple_of_clique3 qs h),
    fun h => chainTriple_of_orderedTriple qs ((detectCube_eq_true_iff qs).mp h)⟩

/-- Witness of the amended C10: the three faces of the projected cube form a
clique, are detected, and contain a chain. -/
theorem detectCube_clique3_sound_witness :
    Clique3 [faceTop, faceRight, faceLeft] ∧
    detectCube [faceTop, faceRight, faceLeft] = .ok true ∧
    ChainTriple [faceTop, faceRight, faceLeft] := by
  have hc : Clique3 [faceTop, faceRight, faceLeft] :=
    ⟨0, 1, 2, faceTop, faceRight, faceLeft, by decide, by decide, by decide, rfl, rfl, rfl,
      by decide, by decide, by decide⟩
  have hd := (detectCube_clique3_sound [faceTop, faceRight, faceLeft]).1 hc
  exact ⟨hc, hd, (detectCube_clique3_sound [faceTop, faceRight, faceLeft]).2 hd⟩

end CubeDetection
